import Mathlib

/-!
Verification of the Text_To_SQL backend (`server/index.js`-style source,
`src/unnamed/part_000`) against its natural-language specification.

The JavaScript code is shallowly embedded: JS strings become `List Char`,
the sanitizer `sanitizeSql` becomes a total function into `Except`, the
schema cache becomes explicit state passing, and the HTTP handler becomes a
function of the request body plus the outcomes of its external
collaborators (database metadata queries, model API call, query execution).

Modelling notes (fidelity to JS semantics):
* `String.prototype.trim` removes the ECMAScript WhiteSpace and
  LineTerminator code points; `isJsWsp` lists them.
* `String.prototype.toLowerCase` is modelled by `Char.toLower` (ASCII
  lowering); every string the claims inspect is ASCII apart from opaque
  data, and the sanitizer keywords are ASCII.
* `"x".split(";")` keeps empty fragments, as `splitSemi` does.
* the regex `\b(insert|...)\b` word-boundary semantics (`\w` = ASCII
  letters, digits, underscore) is `bannedScan`.
-/

namespace TextToSql

/-- Code points removed by JS `String.prototype.trim` (ECMAScript WhiteSpace
and LineTerminator). -/
def isJsWsp (c : Char) : Bool :=
  c == ' ' || c == '\t' || c == '\n' || c == '\r' ||
  c == '\u000b' || c == '\u000c' || c == '\u00a0' || c == '\ufeff' ||
  c == '\u1680' || c == '\u2000' || c == '\u2001' || c == '\u2002' ||
  c == '\u2003' || c == '\u2004' || c == '\u2005' || c == '\u2006' ||
  c == '\u2007' || c == '\u2008' || c == '\u2009' || c == '\u200a' ||
  c == '\u2028' || c == '\u2029' || c == '\u202f' || c == '\u205f' ||
  c == '\u3000'

/-- Drop leading JS whitespace. -/
def trimLeft (l : List Char) : List Char := l.dropWhile isJsWsp

/-- Drop trailing JS whitespace. -/
def trimRight (l : List Char) : List Char := (l.reverse.dropWhile isJsWsp).reverse

/-- JS `s.trim()`. -/
def trimChars (l : List Char) : List Char := trimLeft (trimRight l)

/-- JS `s.toLowerCase()` on the ASCII range. -/
def lowerStr (l : List Char) : List Char := l.map Char.toLower

/-- JS `s.split(";")`: all fragments between semicolons, empty ones kept. -/
def splitSemi : List Char → List (List Char)
  | [] => [[]]
  | c :: cs =>
    match splitSemi cs with
    | [] => [[]]
    | f :: rest => if c = ';' then [] :: f :: rest else (c :: f) :: rest

/-- Number of fragments that survive `.filter((s) => s.trim())`, i.e. whose
trimmed text is non-empty. -/
def fragCount (l : List Char) : Nat :=
  ((splitSemi l).filter (fun f => !(trimChars f).isEmpty)).length

/-- Word characters of the JS regex `\w` / `\b`: ASCII letters, digits, `_`
(code points 48-57, 65-90, 97-122, 95). -/
def isWordChar (c : Char) : Bool :=
  (48 ≤ c.toNat && c.toNat ≤ 57) || (65 ≤ c.toNat && c.toNat ≤ 90) ||
  (97 ≤ c.toNat && c.toNat ≤ 122) || c.toNat == 95

/-- The banned-operation alternatives of the regex in `sanitizeSql`. -/
def bannedWords : List (List Char) :=
  ["insert".data, "update".data, "delete".data, "alter".data, "drop".data,
   "truncate".data, "create".data, "grant".data, "revoke".data,
   "comment".data, "copy".data, "call".data]

/-- Word `w` occurs at the very start of `rest` with a word boundary after
it (next character absent or not a word character). -/
def hasWordAt (w rest : List Char) : Bool :=
  w.isPrefixOf rest &&
    (match rest.drop w.length with
     | [] => true
     | c :: _ => !isWordChar c)

/-- Scan for a banned word with `\b` boundaries.  `prevIsWord` records
whether the character just before the current position is a word character
(initially `false`: start of string is a boundary). -/
def bannedScan (prevIsWord : Bool) (l : List Char) : Bool :=
  match l with
  | [] => false
  | c :: cs =>
    ((!prevIsWord) && bannedWords.any (fun w => hasWordAt w (c :: cs))) ||
      bannedScan (isWordChar c) cs

/-- JS `s.includes(pat)`: `pat` occurs as a contiguous substring. -/
def containsSub (pat : List Char) (l : List Char) : Bool :=
  match l with
  | [] => pat.isEmpty
  | c :: cs => pat.isPrefixOf (c :: cs) || containsSub pat cs

/-- The five rejection reasons of `sanitizeSql`, in source order. -/
inductive SanitizeError
  | SqlMissing
  | NotASelect
  | MultipleStatements
  | ForbiddenOperation
  | CommentsNotAllowed
deriving DecidableEq, Repr

/-- The `Error` message text thrown by `sanitizeSql` for each reason. -/
def SanitizeError.message : SanitizeError → List Char
  | .SqlMissing => "SQL missing.".data
  | .NotASelect => "Only SELECT queries are allowed.".data
  | .MultipleStatements => "Multiple statements are not allowed.".data
  | .ForbiddenOperation => "Query contains a forbidden operation.".data
  | .CommentsNotAllowed => "Comments are not allowed in generated SQL.".data

/-- Strip one trailing semicolon:
`trimmed.endsWith(";") ? trimmed.slice(0, -1) : trimmed`. -/
def stripOneTrailingSemi (l : List Char) : List Char :=
  if l.getLast? = some ';' then l.dropLast else l

/-- Shallow embedding of `sanitizeSql` (src/unnamed/part_000 lines 110-135)
on string inputs.  (`!sql` for a string is truthy exactly on `""`; the
`typeof` guard for non-string values is handled by `sanitizeJs` below.) -/
def sanitizeSql (sql : List Char) : Except SanitizeError (List Char) :=
  if sql.isEmpty then .error .SqlMissing
  else
    let trimmed := trimChars sql
    let lowered := lowerStr trimmed
    if !("select".data.isPrefixOf lowered) then .error .NotASelect
    else if 1 < fragCount trimmed then .error .MultipleStatements
    else if bannedScan false lowered then .error .ForbiddenOperation
    else if containsSub "--".data lowered || containsSub "/*".data lowered then
      .error .CommentsNotAllowed
    else .ok (stripOneTrailingSemi trimmed)

/-! ### Spec-side formulations of the sanitizer rules

These definitions transcribe the wording of the specification (§4.4 and the
SanitizedQuery invariant) rather than the code: position-indexed substring
and word-boundary tests.  The theorems below relate them to the scanning
functions the code embedding uses. -/

/-- The text starts with `pat` (spec rule 2 reads "must start with"). -/
def specStarts (pat l : List Char) : Bool := l.take pat.length == pat

/-- Word `w` matches at offset `i` of `l` with a word boundary on each side:
the character just before offset `i` (if any) and the character just after
the match (if any) are not word characters. -/
def matchAtPos (w l : List Char) (i : Nat) : Bool :=
  specStarts w (l.drop i) &&
  (match (l.take i).getLast? with
   | none => true
   | some c => !isWordChar c) &&
  (match (l.drop (i + w.length)).head? with
   | none => true
   | some c => !isWordChar c)

/-- Some banned operation word occurs somewhere in `l` as a whole word. -/
def specBannedHit (l : List Char) : Bool :=
  (List.range (l.length + 1)).any fun i => bannedWords.any fun w => matchAtPos w l i

/-- Substring occurrence test, by position (spec rule 5 reads "contain"). -/
def specContains (pat l : List Char) : Bool :=
  (List.range (l.length + 1)).any fun i => specStarts pat (l.drop i)

/-- Occurrence of `w` in `l` delimited by word boundaries, as a
decomposition. -/
def WordOccur (w l : List Char) : Prop :=
  ∃ pre post, l = pre ++ w ++ post ∧
    (∀ c, pre.getLast? = some c → isWordChar c = false) ∧
    (∀ c, post.head? = some c → isWordChar c = false)

/-- Some banned word occurs in `l` delimited by word boundaries. -/
def BannedOccur (l : List Char) : Prop := ∃ w ∈ bannedWords, WordOccur w l

/-- The sanitizer as the specification words it (§4.4, rules 1-6 in order,
first failing rule wins), using the spec-side substring tests. -/
def specSanitize (sql : List Char) : Except SanitizeError (List Char) :=
  if sql.isEmpty then .error .SqlMissing
  else
    let t := trimChars sql
    let low := lowerStr t
    if !(specStarts "select".data low) then .error .NotASelect
    else if 1 < fragCount t then .error .MultipleStatements
    else if specBannedHit low then .error .ForbiddenOperation
    else if specContains "--".data low || specContains "/*".data low then
      .error .CommentsNotAllowed
    else .ok (stripOneTrailingSemi t)

/-- Claim C1 reads "contains no statement separator beyond one terminating
semicolon": after removing one terminating semicolon no semicolon remains. -/
def noSeparatorBeyondTerminal (l : List Char) : Bool :=
  !(stripOneTrailingSemi l).contains ';'

/-- The SanitizedQuery invariant of claim C1 with the statement-separator
conjunct in the form the code actually guarantees (at most one non-empty
fragment when split on `;`): the lower-cased trimmed output starts with
`select`, has at most one non-empty `;`-fragment, no banned whole word, no
comment marker, and the output is the trimmed input with at most one
trailing semicolon removed. -/
def sanitizedInvariant (s out : List Char) : Prop :=
  specStarts "select".data (trimChars (lowerStr out)) = true ∧
  fragCount (trimChars (lowerStr out)) ≤ 1 ∧
  specBannedHit (trimChars (lowerStr out)) = false ∧
  specContains "--".data (trimChars (lowerStr out)) = false ∧
  specContains "/*".data (trimChars (lowerStr out)) = false ∧
  (out = trimChars s ∨
    ((trimChars s).getLast? = some ';' ∧ out = (trimChars s).dropLast))

/-- Helper for reasoning about `splitSemi` of `l ++ [c]`: append a
character to the last fragment. -/
def appendLast : List (List Char) → Char → List (List Char)
  | [], c => [[c]]
  | [f], c => [f ++ [c]]
  | f :: g :: r, c => f :: appendLast (g :: r) c

/-- ASCII apostrophe, to build string literals containing quotes. -/
def squote : Char := Char.ofNat 39

/-- The example input of claim C2:
`select * from t where name = 'update me'`. -/
def c2Input : List Char :=
  "select * from t where name = ".data ++ [squote] ++ "update me".data ++ [squote]

/-! ### Schema snapshotter model (`loadSchema`, src/unnamed/part_000 lines
50-108)

Database rows are opaque strings.  `pg` returns `bigint` values as decimal
strings, and the code only interpolates them into a template, so the
estimated row count is kept as raw text; `Option` covers SQL `NULL` and the
absent-key case of `countMap.get` alike, which the code treats identically
via `est != null`. -/

/-- A row of the `information_schema.columns` metadata query. -/
structure ColumnRow where
  tableSchema : List Char
  tableName : List Char
  columnName : List Char
  dataType : List Char
deriving DecidableEq, Repr

/-- A row of the `pg_class` row-estimate metadata query. -/
structure CountRow where
  tableSchema : List Char
  tableName : List Char
  estRows : Option (List Char)
deriving DecidableEq, Repr

/-- The template-literal key `` `${row.table_schema}.${row.table_name}` ``. -/
def qualOf (sch tbl : List Char) : List Char := sch ++ ".".data ++ tbl

/-- JS `array.join(sep)`. -/
def joinSep (sep : List Char) : List (List Char) → List Char
  | [] => []
  | [x] => x
  | x :: y :: r => x ++ sep ++ joinSep sep (y :: r)

/-- Lookup in `countMap` (built with `Map.set`, so the last row for a key
wins); `none` covers both a missing key and a stored `NULL`, which the code
treats the same through `est != null`. -/
def countLookup (counts : List CountRow) (k : List Char) : Option (List Char) :=
  match (counts.filter (fun r => qualOf r.tableSchema r.tableName == k)).getLast? with
  | some r => r.estRows
  | none => none

/-- The `meta` string: `` ` (est_rows ~${est})` `` when an estimate exists,
otherwise empty. -/
def metaFor : Option (List Char) → List Char
  | some v => " (est_rows ~".data ++ v ++ ")".data
  | none => []

/-- The pushed column text `` `${row.column_name} (${row.data_type})` ``. -/
def colFmt (r : ColumnRow) : List Char :=
  r.columnName ++ " (".data ++ r.dataType ++ ")".data

/-- One entry of `tableMap`: the qualified name, its meta annotation
(computed at first insertion), and the pushed column strings. -/
structure TableEntry where
  key : List Char
  meta : List Char
  cols : List (List Char)
deriving DecidableEq, Repr

/-- One step of the `columns.rows.forEach` loop: create the entry on first
sight of the key, otherwise push the column onto the existing entry. -/
def pushCol (m : List TableEntry) (key meta col : List Char) : List TableEntry :=
  if m.any (fun e => e.key == key) then
    m.map (fun e => if e.key == key then { e with cols := e.cols ++ [col] } else e)
  else m ++ [⟨key, meta, [col]⟩]

/-- The whole `columns.rows.forEach` loop building `tableMap` (JS `Map`
iteration follows insertion order, here list order). -/
def tableFold (counts : List CountRow) (cols : List ColumnRow) : List TableEntry :=
  cols.foldl
    (fun m r =>
      pushCol m (qualOf r.tableSchema r.tableName)
        (metaFor (countLookup counts (qualOf r.tableSchema r.tableName))) (colFmt r))
    []

/-- The schema text: one line per table, `key + meta + ": " + cols.join(", ")`,
joined with newlines. -/
def buildSchemaText (cols : List ColumnRow) (counts : List CountRow) : List Char :=
  joinSep "\n".data
    ((tableFold counts cols).map
      (fun e => e.key ++ e.meta ++ ": ".data ++ joinSep ", ".data e.cols))

/-- Spec-side grouping: the qualified table names in order of first
occurrence. -/
def firstOccs (ks : List (List Char)) : List (List Char) :=
  ks.foldl (fun acc k => if k ∈ acc then acc else acc ++ [k]) []

/-- Spec-side column list of one table: the formatted columns of exactly
the rows carrying that qualified name, in row order. -/
def specColsOf (cols : List ColumnRow) (k : List Char) : List (List Char) :=
  (cols.filter (fun r => qualOf r.tableSchema r.tableName == k)).map colFmt

/-- Spec-side table line `schema.table (est_rows ~N): col1 (type1), ...`,
omitting the row-count annotation when no estimate exists. -/
def specLine (k : List Char) (est : Option (List Char)) (colStrs : List (List Char)) :
    List Char :=
  k ++
    (match est with
     | some v => " (est_rows ~".data ++ v ++ ")".data
     | none => []) ++
    ": ".data ++ joinSep ", ".data colStrs

/-- Spec-side snapshot: the per-table lines joined with newlines. -/
def specSchemaText (cols : List ColumnRow) (counts : List CountRow) : List Char :=
  joinSep "\n".data
    ((firstOccs (cols.map (fun r => qualOf r.tableSchema r.tableName))).map
      (fun k => specLine k (countLookup counts k) (specColsOf cols k)))

/-- The module-level cache variables `cachedSchema` / `cachedSchemaLoadedAt`
(`null` initially, timestamp in milliseconds). -/
structure CacheState where
  cachedSchema : Option (List Char)
  loadedAt : Nat
deriving DecidableEq, Repr

/-- Cache window: `5 * 60 * 1000` milliseconds. -/
def SCHEMA_CACHE_MS : Nat := 5 * 60 * 1000

/-- Everything one `loadSchema` call produces: its outcome, the cache state
it leaves behind, how often it acquired and released a pool connection, and
how many metadata queries it issued. -/
structure LoadResult where
  result : Except (List Char) (List Char)
  state : CacheState
  connects : Nat
  releases : Nat
  queries : Nat

/-- The cache-miss path: acquire a connection, issue both metadata queries
(`Promise.all`), and either propagate the first failure leaving the cache
untouched, or build the snapshot and cache it with the current timestamp.
The `finally` block releases the connection on every path, so `releases`
always equals `connects`. -/
def refreshSchema (now : Nat) (colsR : Except (List Char) (List ColumnRow))
    (countsR : Except (List Char) (List CountRow)) (st : CacheState) : LoadResult :=
  match colsR, countsR with
  | .error e, _ => ⟨.error e, st, 1, 1, 2⟩
  | .ok _, .error e => ⟨.error e, st, 1, 1, 2⟩
  | .ok cols, .ok counts =>
    ⟨.ok (buildSchemaText cols counts),
      ⟨some (buildSchemaText cols counts), now⟩, 1, 1, 2⟩

/-- Shallow embedding of `loadSchema`.  The guard mirrors the JS truthiness
test `cachedSchema && now - cachedSchemaLoadedAt < SCHEMA_CACHE_MS`: a
`null` cache and a cached empty string are both falsy and refresh. -/
def loadSchema (now : Nat) (colsR : Except (List Char) (List ColumnRow))
    (countsR : Except (List Char) (List CountRow)) (st : CacheState) : LoadResult :=
  match st.cachedSchema with
  | some s =>
    if s ≠ [] ∧ now - st.loadedAt < SCHEMA_CACHE_MS then ⟨.ok s, st, 0, 0, 0⟩
    else refreshSchema now colsR countsR st
  | none => refreshSchema now colsR countsR st

/-- Concrete metadata row used by counterexamples and witnesses. -/
def exCol : ColumnRow := ⟨"public".data, "users".data, "id".data, "integer".data⟩

/-! ### HTTP handler model (`POST /api/query`, src/unnamed/part_000 lines
184-198)

External collaborators (schema snapshotter outcome, model API call, query
execution) are injected as values; JS values that are not strings are kept
abstract through `JsVal`, retaining only their truthiness. -/

/-- A JS value as the handler observes it: a string, or a non-string value
that is truthy (object, non-zero number, ...) or falsy (`null`, `0`,
`false`, `NaN`). -/
inductive JsVal
  | str (s : List Char)
  | truthyNonStr
  | falsyNonStr
deriving DecidableEq, Repr

/-- JS truthiness: the empty string is falsy. -/
def JsVal.isTruthy : JsVal → Bool
  | .str s => !s.isEmpty
  | .truthyNonStr => true
  | .falsyNonStr => false

/-- Outcome of the model API call: a thrown API error, a completion with no
content, content that is not valid JSON, or a parsed JSON object with its
`sql` and `notes` fields (absent fields are `none`). -/
inductive ModelOutcome
  | apiError (msg : List Char)
  | noContent
  | badJson
  | okJson (sqlField notesField : Option JsVal)
deriving DecidableEq, Repr

/-- Result of `pool.query`: rows (opaque) and a row count. -/
structure QueryResult where
  rows : List (List Char)
  rowCount : Int
deriving DecidableEq, Repr

/-- The injected outcomes of the three external collaborators. -/
structure Externals where
  schemaR : Except (List Char) (List Char)
  modelR : ModelOutcome
  execR : List Char → Except (List Char) QueryResult

/-- Body of the HTTP response. -/
inductive RespBody
  | errMsg (msg : List Char)
  | success (sql : List Char) (notes : JsVal) (rows : List (List Char)) (rowCount : Int)
deriving DecidableEq, Repr

/-- An HTTP response: status code and JSON body. -/
structure HttpResp where
  status : Nat
  body : RespBody
deriving DecidableEq, Repr

/-- Which collaborators a request invoked. -/
structure Invoked where
  schemaQ : Bool
  modelQ : Bool
  dbQ : Bool
deriving DecidableEq, Repr

/-- `sanitizeSql` as called on the JS value `parsed.sql`: the
`!sql || typeof sql !== "string"` guard throws `SQL missing.` for every
non-string (the empty string is covered by `sanitizeSql` itself). -/
def sanitizeJs (v : JsVal) : Except (List Char) (List Char) :=
  match v with
  | .str s => (sanitizeSql s).mapError SanitizeError.message
  | _ => .error (SanitizeError.message .SqlMissing)

/-- JS `parsed.notes || ""`. -/
def notesOr (nf : Option JsVal) : JsVal :=
  let v := nf.getD .falsyNonStr
  if v.isTruthy then v else .str []

/-- The `buildSql` pipeline (lines 137-168): schema, model call, content
check, JSON parse, `sql` presence check, sanitization.  Returns the
outcome together with which collaborators ran. -/
def buildSqlM (ext : Externals) : Except (List Char) (List Char × JsVal) × Invoked :=
  match ext.schemaR with
  | .error m => (.error m, ⟨true, false, false⟩)
  | .ok _ =>
    match ext.modelR with
    | .apiError m => (.error m, ⟨true, true, false⟩)
    | .noContent => (.error "No response from model.".data, ⟨true, true, false⟩)
    | .badJson => (.error "Model returned invalid JSON.".data, ⟨true, true, false⟩)
    | .okJson sqlF notesF =>
      if !(sqlF.getD .falsyNonStr).isTruthy then
        (.error "Model did not return SQL.".data, ⟨true, true, false⟩)
      else
        match sanitizeJs (sqlF.getD .falsyNonStr) with
        | .error m => (.error m, ⟨true, true, false⟩)
        | .ok sql => (.ok (sql, notesOr notesF), ⟨true, true, false⟩)

/-- The validation `!question || typeof question !== "string" ||
!question.trim()`: valid exactly when the body carries a string whose trim
is non-empty. -/
def validQuestion : Option JsVal → Option (List Char)
  | some (.str s) => if (trimChars s).isEmpty then none else some s
  | _ => none

/-- Shallow embedding of the `POST /api/query` handler. -/
def handleQuery (q : Option JsVal) (ext : Externals) : HttpResp × Invoked :=
  match validQuestion q with
  | none => (⟨400, .errMsg "Question is required".data⟩, ⟨false, false, false⟩)
  | some _ =>
    match buildSqlM ext with
    | (.error m, inv) => (⟨400, .errMsg m⟩, inv)
    | (.ok (sql, notes), inv) =>
      match ext.execR sql with
      | .error m => (⟨400, .errMsg m⟩, { inv with dbQ := true })
      | .ok res => (⟨200, .success sql notes res.rows res.rowCount⟩, { inv with dbQ := true })

/-- Concrete collaborator outcomes used by witnesses. -/
def exExt : Externals :=
  ⟨.ok [], .okJson (some (.str "select 1".data)) none, fun _ => .ok ⟨[], 0⟩⟩

/-! ### Evaluation checks on concrete inputs -/

example : sanitizeSql "select 1;".data = .ok "select 1".data := by rfl
example : sanitizeSql "  SELECT * from t  ".data = .ok "SELECT * from t".data := by rfl
example : sanitizeSql "".data = .error .SqlMissing := by rfl
example : sanitizeSql "drop table t".data = .error .NotASelect := by rfl
example : sanitizeSql "select 1; select 2".data = .error .MultipleStatements := by rfl
example : sanitizeSql "select * from t where x = 1 -- note".data = .error .CommentsNotAllowed := by rfl
example : sanitizeSql "select 1 -- comment".data = .error .ForbiddenOperation := by rfl
example : sanitizeSql "selection 1".data = .ok "selection 1".data := by rfl
example : sanitizeSql "select 1;;;".data = .ok "select 1;;".data := by rfl
example : sanitizeSql "select updates from t".data = .ok "select updates from t".data := by rfl
example : sanitizeSql "select x from drops".data = .ok "select x from drops".data := by rfl
example : sanitizeSql c2Input = .error .ForbiddenOperation := by rfl
example : specSanitize "select 1 -- comment".data = .error .ForbiddenOperation := by rfl
example : buildSchemaText [exCol] [⟨"public".data, "users".data, some "42".data⟩] =
    "public.users (est_rows ~42): id (integer)".data := by rfl
example : buildSchemaText [exCol] [] = "public.users: id (integer)".data := by rfl

/-! ### Character-level facts -/

theorem char_eq_of_toNat_eq {c d : Char} (h : c.toNat = d.toNat) : c = d :=
  Char.ext (UInt32.toNat.inj h)

theorem toNat_ofNat_valid (n : Nat) (h : n.isValidChar) : (Char.ofNat n).toNat = n := by
  unfold Char.ofNat
  rw [dif_pos h]
  unfold Char.ofNatAux
  simp [Char.toNat, UInt32.toNat, UInt32.ofNatCore]

/-- Every JS whitespace code point is at most 32 or at least 160. -/
theorem wsp_codes (c : Char) (h : isJsWsp c = true) : c.toNat ≤ 32 ∨ 160 ≤ c.toNat := by
  simp only [isJsWsp, Bool.or_eq_true, beq_iff_eq] at h
  repeat' rcases h with h | rfl
  all_goals decide

theorem wsp_false_of_range (c : Char) (h1 : 33 ≤ c.toNat) (h2 : c.toNat ≤ 159) :
    isJsWsp c = false := by
  cases hw : isJsWsp c
  · rfl
  · rcases wsp_codes c hw with h | h <;> omega

theorem word_code (c : Char) (h : isWordChar c = true) : 48 ≤ c.toNat ∧ c.toNat ≤ 122 := by
  simp only [isWordChar, Bool.or_eq_true, Bool.and_eq_true, decide_eq_true_eq, beq_iff_eq] at h
  omega

theorem wsp_not_word (c : Char) (h : isJsWsp c = true) : isWordChar c = false := by
  cases hw : isWordChar c
  · rfl
  · rcases wsp_codes c h with h2 | h2 <;> rcases word_code c hw with ⟨h3, h4⟩ <;> omega

theorem semi_not_word : isWordChar ';' = false := by decide

theorem semi_not_wsp : isJsWsp ';' = false := by decide

/-- The branch structure of `Char.toLower`: either the character is left
unchanged (and is not an ASCII capital), or it is a capital shifted by 32. -/
theorem toLower_cases (c : Char) :
    (Char.toLower c = c ∧ (c.toNat < 65 ∨ 90 < c.toNat)) ∨
      ((Char.toLower c).toNat = c.toNat + 32 ∧ 65 ≤ c.toNat ∧ c.toNat ≤ 90) := by
  unfold Char.toLower
  by_cases h : c.toNat ≥ 65 ∧ c.toNat ≤ 90
  · right
    rw [if_pos h]
    exact ⟨toNat_ofNat_valid _ (Or.inl (by omega)), h⟩
  · left
    rw [if_neg h]
    exact ⟨rfl, by omega⟩

theorem toLower_wsp (c : Char) : isJsWsp (Char.toLower c) = isJsWsp c := by
  rcases toLower_cases c with ⟨h, _⟩ | ⟨h, h1, h2⟩
  · rw [h]
  · rw [wsp_false_of_range _ (by omega) (by omega),
      wsp_false_of_range c (by omega) (by omega)]

theorem toLower_semi (c : Char) : Char.toLower c = ';' ↔ c = ';' := by
  rcases toLower_cases c with ⟨h, _⟩ | ⟨h, h1, h2⟩
  · rw [h]
  · have hsemi : (';' : Char).toNat = 59 := by decide
    constructor
    · intro hs
      rw [hs] at h
      omega
    · intro hs
      subst hs
      omega

theorem toLower_semi_self : Char.toLower ';' = ';' := by decide

/-! ### Trim lemmas -/

theorem head?_dropWhile_not (p : Char → Bool) (l : List Char) {c : Char}
    (h : (l.dropWhile p).head? = some c) : p c = false := by
  induction l with
  | nil => simp at h
  | cons a t ih =>
    rw [List.dropWhile_cons] at h
    by_cases hp : p a = true
    · rw [if_pos hp] at h
      exact ih h
    · rw [if_neg hp] at h
      simp only [List.head?_cons, Option.some.injEq] at h
      subst h
      exact Bool.eq_false_iff.mpr hp

theorem head?_of_prefix {p l : List Char} (h : p <+: l) (hp : p ≠ []) : l.head? = p.head? := by
  obtain ⟨t, rfl⟩ := h
  cases p with
  | nil => exact absurd rfl hp
  | cons a q => rfl

theorem getLast?_of_suffix {k l : List Char} (h : k <:+ l) (hk : k ≠ []) :
    l.getLast? = k.getLast? := by
  obtain ⟨w, rfl⟩ := h
  rw [List.getLast?_append]
  cases hlast : k.getLast? with
  | none => exact absurd (List.getLast?_eq_none_iff.mp hlast) hk
  | some c => rfl

theorem trimLeft_eq_self {l : List Char} (h : ∀ c, l.head? = some c → isJsWsp c = false) :
    trimLeft l = l := by
  cases l with
  | nil => rfl
  | cons a t => simp [trimLeft, List.dropWhile_cons, h a rfl]

theorem trimRight_eq_self {l : List Char} (h : ∀ c, l.getLast? = some c → isJsWsp c = false) :
    trimRight l = l := by
  unfold trimRight
  have hrw : l.reverse.dropWhile isJsWsp = l.reverse := by
    cases hrev : l.reverse with
    | nil => rfl
    | cons a t =>
      have ha : l.getLast? = some a := by
        rw [← List.head?_reverse, hrev]
        rfl
      simp [List.dropWhile_cons, h a ha]
  rw [hrw, List.reverse_reverse]

theorem trimRight_prefixOf (l : List Char) : trimRight l <+: l := by
  conv_rhs => rw [← List.reverse_reverse l]
  exact List.reverse_prefix.mpr (List.dropWhile_suffix isJsWsp)

theorem trimRight_decomp (l : List Char) :
    ∃ u, l = trimRight l ++ u ∧ ∀ c ∈ u, isJsWsp c = true := by
  refine ⟨(l.reverse.takeWhile isJsWsp).reverse, ?_, ?_⟩
  · conv_lhs => rw [← List.reverse_reverse l,
      ← List.takeWhile_append_dropWhile isJsWsp l.reverse]
    rw [List.reverse_append]
    rfl
  · intro c hc
    rw [List.mem_reverse] at hc
    exact List.mem_takeWhile_imp hc

theorem trimRight_concat_wsp {c : Char} (h : isJsWsp c = true) (l : List Char) :
    trimRight (l ++ [c]) = trimRight l := by
  unfold trimRight
  rw [List.reverse_append]
  simp [List.dropWhile_cons, h]

theorem trimChars_concat_wsp {c : Char} (h : isJsWsp c = true) (l : List Char) :
    trimChars (l ++ [c]) = trimChars l := by
  unfold trimChars
  rw [trimRight_concat_wsp h]

theorem trimChars_head {l : List Char} {c : Char} (h : (trimChars l).head? = some c) :
    isJsWsp c = false := by
  unfold trimChars trimLeft at h
  exact head?_dropWhile_not _ _ h

theorem trimChars_getLast {l : List Char} {c : Char} (h : (trimChars l).getLast? = some c) :
    isJsWsp c = false := by
  unfold trimChars at h
  have hsuf : trimLeft (trimRight l) <:+ trimRight l := List.dropWhile_suffix isJsWsp
  have hne : trimLeft (trimRight l) ≠ [] := by
    intro hnil
    rw [hnil] at h
    simp at h
  rw [← getLast?_of_suffix hsuf hne] at h
  unfold trimRight at h
  rw [List.getLast?_reverse] at h
  exact head?_dropWhile_not _ _ h

theorem trimChars_eq_self {l : List Char} (hh : ∀ c, l.head? = some c → isJsWsp c = false)
    (hl : ∀ c, l.getLast? = some c → isJsWsp c = false) : trimChars l = l := by
  unfold trimChars
  rw [trimRight_eq_self hl]
  exact trimLeft_eq_self hh

theorem trimChars_nil_iff (l : List Char) :
    trimChars l = [] ↔ ∀ c ∈ l, isJsWsp c = true := by
  unfold trimChars trimLeft
  rw [List.dropWhile_eq_nil_iff]
  constructor
  · intro h c hc
    obtain ⟨u, hdec, hu⟩ := trimRight_decomp l
    rw [hdec] at hc
    rcases List.mem_append.mp hc with hc | hc
    · exact h c hc
    · exact hu c hc
  · intro h c hc
    exact h c (List.IsPrefix.subset (trimRight_prefixOf l) hc)

theorem trimChars_keep_start {p l : List Char} (hp : p ≠ [])
    (hw : ∀ c ∈ p, isJsWsp c = false) (h : p <+: l) : p <+: trimChars l := by
  have hright : p <+: trimRight l := by
    obtain ⟨r, rfl⟩ := h
    unfold trimRight
    rw [List.reverse_append, List.dropWhile_append]
    by_cases he : (r.reverse.dropWhile isJsWsp).isEmpty
    · rw [if_pos he]
      have hrev : p.reverse.dropWhile isJsWsp = p.reverse := by
        cases hpr : p.reverse with
        | nil => rfl
        | cons a t =>
          have ha : a ∈ p := by
            rw [← List.mem_reverse, hpr]
            exact List.mem_cons_self a t
          simp [List.dropWhile_cons, hw a ha]
      rw [hrev, List.reverse_reverse]
    · rw [if_neg he, List.reverse_append, List.reverse_reverse]
      exact List.prefix_append p _
  obtain ⟨s, hs⟩ := hright
  unfold trimChars
  rw [← hs]
  cases p with
  | nil => exact absurd rfl hp
  | cons a q =>
    rw [List.cons_append, trimLeft_eq_self]
    · exact List.prefix_append _ s
    · intro d hd
      have had : a = d := by simpa using hd
      rw [← had]
      exact hw a (List.mem_cons_self a q)

theorem wsp_ne_semi {c : Char} (h : isJsWsp c = true) : c ≠ ';' := by
  intro he
  subst he
  exact absurd h (by decide)

/-! ### Split and fragment lemmas -/

theorem splitSemi_ne_nil (l : List Char) : splitSemi l ≠ [] := by
  cases l with
  | nil => simp [splitSemi]
  | cons c cs =>
    unfold splitSemi
    cases h : splitSemi cs with
    | nil => simp
    | cons f rest => by_cases hc : c = ';' <;> simp [hc]

theorem splitSemi_concat_semi (l : List Char) :
    splitSemi (l ++ [';']) = splitSemi l ++ [[]] := by
  induction l with
  | nil => rfl
  | cons c cs ih =>
    rw [List.cons_append]
    unfold splitSemi
    rw [ih]
    cases h : splitSemi cs with
    | nil => exact absurd h (splitSemi_ne_nil cs)
    | cons f rest => by_cases hc : c = ';' <;> simp [hc]

theorem splitSemi_concat_other {c : Char} (hc : ¬c = ';') (l : List Char) :
    splitSemi (l ++ [c]) = appendLast (splitSemi l) c := by
  induction l with
  | nil => simp [splitSemi, appendLast, hc]
  | cons a l ih =>
    rw [List.cons_append]
    unfold splitSemi
    rw [ih]
    cases h : splitSemi l with
    | nil => exact absurd h (splitSemi_ne_nil l)
    | cons f rest =>
      by_cases ha : a = ';'
      · cases rest <;> simp [ha, appendLast]
      · cases rest <;> simp [ha, appendLast]

theorem filter_appendLast_wsp {c : Char} (h : isJsWsp c = true) (fs : List (List Char))
    (hfs : fs ≠ []) :
    ((appendLast fs c).filter (fun f => !(trimChars f).isEmpty)).length =
      (fs.filter (fun f => !(trimChars f).isEmpty)).length := by
  induction fs with
  | nil => exact absurd rfl hfs
  | cons f rest ih =>
    cases rest with
    | nil =>
      show ((appendLast [f] c).filter _).length = _
      simp only [appendLast, List.filter_cons, List.filter_nil, trimChars_concat_wsp h]
      cases hf : (!(trimChars f).isEmpty) <;> simp [hf]
    | cons g r =>
      show ((f :: appendLast (g :: r) c).filter _).length = _
      rw [List.filter_cons, List.filter_cons]
      have := ih (by simp)
      by_cases hf : (!(trimChars f).isEmpty) = true <;> simp [hf, this]

theorem fragCount_concat_wsp {c : Char} (h : isJsWsp c = true) (l : List Char) :
    fragCount (l ++ [c]) = fragCount l := by
  unfold fragCount
  rw [splitSemi_concat_other (wsp_ne_semi h), filter_appendLast_wsp h _ (splitSemi_ne_nil l)]

theorem fragCount_concat_semi (l : List Char) : fragCount (l ++ [';']) = fragCount l := by
  unfold fragCount
  rw [splitSemi_concat_semi, List.filter_append]
  have h0 : List.filter (fun f => !(trimChars f).isEmpty) [[]] = [] := rfl
  rw [h0, List.append_nil]

theorem splitSemi_map_lower (l : List Char) :
    splitSemi (lowerStr l) = (splitSemi l).map lowerStr := by
  induction l with
  | nil => rfl
  | cons c cs ih =>
    show splitSemi (Char.toLower c :: lowerStr cs) = _
    unfold splitSemi
    rw [ih]
    cases h : splitSemi cs with
    | nil => exact absurd h (splitSemi_ne_nil cs)
    | cons f rest =>
      by_cases hc : c = ';'
      · have hlc : Char.toLower c = ';' := (toLower_semi c).mpr hc
        simp [hlc, hc, lowerStr]
      · have hlc : ¬Char.toLower c = ';' := fun he => hc ((toLower_semi c).mp he)
        simp [hlc, hc, lowerStr]

theorem trim_lower_nil (f : List Char) : trimChars (lowerStr f) = [] ↔ trimChars f = [] := by
  rw [trimChars_nil_iff, trimChars_nil_iff]
  constructor
  · intro h c hc
    have := h (Char.toLower c) (List.mem_map_of_mem Char.toLower hc)
    rwa [toLower_wsp] at this
  · intro h c hc
    obtain ⟨d, hd, rfl⟩ := List.mem_map.mp hc
    rw [toLower_wsp]
    exact h d hd

theorem fragCount_lower (l : List Char) : fragCount (lowerStr l) = fragCount l := by
  unfold fragCount
  rw [splitSemi_map_lower, List.filter_map]
  rw [List.length_map]
  congr 1
  apply List.filter_congr
  intro f _
  simp only [Function.comp_apply, Bool.not_eq_true']
  cases hf : (trimChars f).isEmpty
  · have : ¬trimChars (lowerStr f) = [] := by
      rw [trim_lower_nil]
      exact fun he => by simp [he] at hf
    simp [List.isEmpty_iff, this]
  · have : trimChars (lowerStr f) = [] := by
      rw [trim_lower_nil]
      exact List.isEmpty_iff.mp hf
    simp [List.isEmpty_iff, this]

theorem trimChars_eq_trimRight {l : List Char} {c : Char} (hc : l.head? = some c)
    (h : isJsWsp c = false) : trimChars l = trimRight l := by
  unfold trimChars
  apply trimLeft_eq_self
  intro d hd
  have hne : trimRight l ≠ [] := by
    intro hnil
    rw [hnil] at hd
    simp at hd
  have := head?_of_prefix (trimRight_prefixOf l) hne
  rw [hc] at this
  rw [hd] at this
  obtain rfl : c = d := by injection this
  exact h

/-! ### Substring lemmas -/

theorem isPrefixOf_iff (p l : List Char) : p.isPrefixOf l = true ↔ p <+: l :=
  List.isPrefixOf_iff_prefix

theorem containsSub_iff (pat l : List Char) : containsSub pat l = true ↔ pat <:+: l := by
  induction l with
  | nil =>
    unfold containsSub
    rw [List.isEmpty_iff]
    constructor
    · rintro rfl
      exact List.infix_rfl
    · intro h
      exact List.eq_nil_of_infix_nil h
  | cons c cs ih =>
    unfold containsSub
    rw [Bool.or_eq_true, isPrefixOf_iff, ih]
    constructor
    · rintro (h | h)
      · exact h.isInfix
      · exact List.infix_cons h
    · rintro ⟨s, t, hst⟩
      cases s with
      | nil =>
        left
        exact ⟨t, by simpa using hst⟩
      | cons a s' =>
        right
        refine ⟨s', t, ?_⟩
        rw [List.cons_append, List.cons_append] at hst
        injection hst

theorem specStarts_iff (pat l : List Char) : specStarts pat l = true ↔ pat <+: l := by
  unfold specStarts
  rw [beq_iff_eq]
  constructor
  · intro h
    refine ⟨l.drop pat.length, ?_⟩
    have h2 := List.take_append_drop pat.length l
    rw [h] at h2
    exact h2
  · rintro ⟨t, rfl⟩
    exact List.take_left pat t

theorem specContains_iff (pat l : List Char) : specContains pat l = true ↔ pat <:+: l := by
  unfold specContains
  rw [List.any_eq_true]
  constructor
  · rintro ⟨i, _, h⟩
    rw [specStarts_iff] at h
    obtain ⟨t, ht⟩ := h
    refine ⟨l.take i, t, ?_⟩
    rw [List.append_assoc, ht, List.take_append_drop]
  · rintro ⟨s, t, rfl⟩
    refine ⟨s.length, ?_, ?_⟩
    · rw [List.mem_range]
      simp only [List.length_append]
      omega
    · rw [specStarts_iff, List.append_assoc, List.drop_left]
      exact List.prefix_append pat t

theorem containsSub_eq_specContains (pat l : List Char) :
    containsSub pat l = specContains pat l := by
  by_cases h : containsSub pat l = true
  · rw [h, eq_comm]
    exact (specContains_iff pat l).mpr ((containsSub_iff pat l).mp h)
  · rw [Bool.not_eq_true] at h
    rw [h, eq_comm, Bool.eq_false_iff]
    intro hs
    rw [← Bool.not_eq_true] at h
    exact h ((containsSub_iff pat l).mpr ((specContains_iff pat l).mp hs))

theorem infix_of_prefix_infix {pat k l : List Char} (h : pat <:+: k) (hk : k <+: l) :
    pat <:+: l :=
  h.trans hk.isInfix

theorem infix_pair_concat {a b c : Char} (hbc : b ≠ c) {l : List Char}
    (h : [a, b] <:+: l ++ [c]) : [a, b] <:+: l := by
  obtain ⟨s, t, hst⟩ := h
  cases t using List.reverseRecOn with
  | nil =>
    exfalso
    have h2 : (s ++ [a, b] ++ ([] : List Char)).getLast? = some b := by
      simp [List.getLast?_append]
    rw [hst] at h2
    have h1 : (l ++ [c]).getLast? = some c := by simp
    rw [h1] at h2
    have hcb : c = b := by injection h2
    exact hbc hcb.symm
  | append_singleton t' d _ih =>
    have hst' : (s ++ [a, b] ++ t') ++ [d] = l ++ [c] := by
      rw [← hst]
      simp [List.append_assoc]
    have hlen : (s ++ [a, b] ++ t').length = l.length := by
      have h3 := congrArg List.length hst'
      simp only [List.length_append, List.length_cons, List.length_nil] at h3 ⊢
      omega
    obtain ⟨h1, _⟩ := List.append_inj hst' hlen
    exact ⟨s, t', h1⟩

/-! ### Word-boundary occurrence lemmas -/

theorem bannedWords_ne_nil : ∀ w ∈ bannedWords, w ≠ [] := by decide

theorem bannedWords_wordChars : ∀ w ∈ bannedWords, ∀ c ∈ w, isWordChar c = true := by decide

theorem hasWordAt_iff (w rest : List Char) :
    hasWordAt w rest = true ↔
      ∃ post, rest = w ++ post ∧ (∀ c, post.head? = some c → isWordChar c = false) := by
  unfold hasWordAt
  rw [Bool.and_eq_true, isPrefixOf_iff]
  constructor
  · rintro ⟨⟨t, rfl⟩, hend⟩
    refine ⟨t, rfl, ?_⟩
    intro c hc
    rw [List.drop_left] at hend
    cases t with
    | nil => simp at hc
    | cons d t' =>
      have : d = c := by simpa using hc
      subst this
      simpa using hend
  · rintro ⟨post, rfl, hpost⟩
    refine ⟨List.prefix_append w post, ?_⟩
    rw [List.drop_left]
    cases post with
    | nil => trivial
    | cons d t' => simpa using hpost d rfl

theorem bannedScan_iff (l : List Char) : ∀ p, bannedScan p l = true ↔
    ∃ w ∈ bannedWords, ∃ pre post, l = pre ++ w ++ post ∧
      (∀ c, pre.getLast? = some c → isWordChar c = false) ∧
      (pre = [] → p = false) ∧
      (∀ c, post.head? = some c → isWordChar c = false) := by
  induction l with
  | nil =>
    intro p
    constructor
    · intro h
      exact absurd h (by simp [bannedScan])
    · rintro ⟨w, hw, pre, post, heq, -, -, -⟩
      have h0 : (pre ++ w) ++ post = [] := by rw [← heq]
      have h1 := List.append_eq_nil.mp h0
      have h2 := List.append_eq_nil.mp h1.1
      exact (bannedWords_ne_nil w hw h2.2).elim
  | cons c cs ih =>
    intro p
    unfold bannedScan
    rw [Bool.or_eq_true, Bool.and_eq_true, List.any_eq_true, Bool.not_eq_true', ih]
    constructor
    · rintro (⟨hp, w, hw, hmatch⟩ | ⟨w, hw, pre', post, heq, hlast', hnil', hpost⟩)
      · obtain ⟨post, heq, hpost⟩ := (hasWordAt_iff w (c :: cs)).mp hmatch
        exact ⟨w, hw, [], post, heq, fun d hd => absurd hd (by simp), fun _ => hp, hpost⟩
      · refine ⟨w, hw, c :: pre', post, by rw [heq]; rfl, ?_, by simp, hpost⟩
        intro d hd
        cases pre' with
        | nil =>
          have hcd : c = d := by simpa using hd
          subst hcd
          exact hnil' rfl
        | cons e pre'' =>
          rw [List.getLast?_cons_cons] at hd
          exact hlast' d hd
    · rintro ⟨w, hw, pre, post, heq, hlast, hnilp, hpost⟩
      cases pre with
      | nil =>
        left
        refine ⟨hnilp rfl, w, hw, ?_⟩
        exact (hasWordAt_iff w (c :: cs)).mpr ⟨post, by simpa using heq, hpost⟩
      | cons a pre' =>
        right
        have hca : c = a ∧ cs = pre' ++ w ++ post := by
          rw [List.cons_append, List.cons_append] at heq
          exact ⟨by injection heq, by injection heq⟩
        obtain ⟨rfl, hcs⟩ := hca
        refine ⟨w, hw, pre', post, hcs, ?_, ?_, hpost⟩
        · intro d hd
          apply hlast
          cases pre' with
          | nil => simp at hd
          | cons e pre'' => rw [List.getLast?_cons_cons, hd]
        · intro hpre'
          subst hpre'
          exact hlast c (by simp)

theorem bannedScan_iff_occur (l : List Char) : bannedScan false l = true ↔ BannedOccur l := by
  rw [bannedScan_iff]
  unfold BannedOccur WordOccur
  constructor
  · rintro ⟨w, hw, pre, post, heq, hlast, -, hpost⟩
    exact ⟨w, hw, pre, post, heq, hlast, hpost⟩
  · rintro ⟨w, hw, pre, post, heq, hlast, hpost⟩
    exact ⟨w, hw, pre, post, heq, hlast, fun _ => rfl, hpost⟩

theorem specBannedHit_iff (l : List Char) : specBannedHit l = true ↔ BannedOccur l := by
  unfold specBannedHit
  rw [List.any_eq_true]
  constructor
  · rintro ⟨i, _, hw⟩
    rw [List.any_eq_true] at hw
    obtain ⟨w, hwb, hm⟩ := hw
    unfold matchAtPos at hm
    rw [Bool.and_eq_true, Bool.and_eq_true] at hm
    obtain ⟨⟨hs, hpre⟩, hpost⟩ := hm
    rw [specStarts_iff] at hs
    obtain ⟨t, ht⟩ := hs
    refine ⟨w, hwb, l.take i, t, ?_, ?_, ?_⟩
    · rw [List.append_assoc, ht, List.take_append_drop]
    · intro d hd
      rw [hd] at hpre
      simpa using hpre
    · intro d hd
      have hdrop : l.drop (i + w.length) = t := by
        rw [← List.drop_drop, ← ht, List.drop_left]
      rw [hdrop, hd] at hpost
      simpa using hpost
  · rintro ⟨w, hwb, pre, post, rfl, hpre, hpost⟩
    refine ⟨pre.length, ?_, ?_⟩
    · rw [List.mem_range]
      simp only [List.length_append]
      omega
    · rw [List.any_eq_true]
      refine ⟨w, hwb, ?_⟩
      unfold matchAtPos
      rw [Bool.and_eq_true, Bool.and_eq_true]
      refine ⟨⟨?_, ?_⟩, ?_⟩
      · rw [specStarts_iff, List.append_assoc, List.drop_left]
        exact List.prefix_append w post
      · rw [List.append_assoc, List.take_left]
        cases hl : pre.getLast? with
        | none => rfl
        | some d => simp [hpre d hl]
      · have hdrop : (pre ++ w ++ post).drop (pre.length + w.length) = post := by
          have hlen : pre.length + w.length = (pre ++ w).length := by simp
          rw [hlen, List.drop_left]
        rw [hdrop]
        cases post with
        | nil => rfl
        | cons d t => simp [hpost d rfl]

theorem wordOccur_append {w l u : List Char} (hu : ∀ c ∈ u, isWordChar c = false)
    (h : WordOccur w l) : WordOccur w (l ++ u) := by
  obtain ⟨pre, post, rfl, hpre, hpost⟩ := h
  refine ⟨pre, post ++ u, by simp [List.append_assoc], hpre, ?_⟩
  intro d hd
  cases post with
  | nil =>
    rw [List.nil_append] at hd
    cases u with
    | nil => simp at hd
    | cons e u' =>
      have hed : e = d := by simpa using hd
      subst hed
      exact hu e (List.mem_cons_self e u')
  | cons e t =>
    have hed : e = d := by simpa using hd
    subst hed
    exact hpost e rfl

theorem wordOccur_restrict {w : List Char} (hw : w ≠ [])
    (hword : ∀ c ∈ w, isWordChar c = true) {l u : List Char}
    (hu : ∀ c ∈ u, isWordChar c = false) (h : WordOccur w (l ++ u)) : WordOccur w l := by
  obtain ⟨pre, post, heq, hpre, hpost⟩ := h
  have heq' : l ++ u = pre ++ (w ++ post) := by rw [heq, List.append_assoc]
  rcases List.append_eq_append_iff.mp heq' with ⟨a', _, ha2⟩ | ⟨c', hc1, hc2⟩
  · exfalso
    obtain ⟨w0, w', rfl⟩ : ∃ w0 w', w = w0 :: w' := by
      cases w with
      | nil => exact absurd rfl hw
      | cons w0 w' => exact ⟨w0, w', rfl⟩
    have hmem : w0 ∈ u := by
      rw [ha2]
      exact List.mem_append_right a' (List.mem_append_left post (List.mem_cons_self w0 w'))
    have h1 := hword w0 (List.mem_cons_self w0 w')
    have h2 := hu w0 hmem
    rw [h1] at h2
    exact Bool.noConfusion h2
  · rcases List.append_eq_append_iff.mp hc2 with ⟨a2, hb1, hb2⟩ | ⟨k, hk1, hk2⟩
    · refine ⟨pre, a2, by rw [hc1, hb1, List.append_assoc], hpre, ?_⟩
      intro d hd
      apply hpost
      rw [hb2]
      cases a2 with
      | nil => simp at hd
      | cons e t =>
        have hed : e = d := by simpa using hd
        subst hed
        rfl
    · cases k with
      | nil =>
        have hcw : c' = w := by simpa using hk1.symm
        refine ⟨pre, [], ?_, hpre, fun d hd => absurd hd (by simp)⟩
        rw [hc1, hcw, List.append_nil]
      | cons k0 k' =>
        exfalso
        have hmem_u : k0 ∈ u := by
          rw [hk2]
          exact List.mem_append_left post (List.mem_cons_self k0 k')
        have hmem_w : k0 ∈ w := by
          rw [hk1]
          exact List.mem_append_right c' (List.mem_cons_self k0 k')
        have h1 := hword k0 hmem_w
        have h2 := hu k0 hmem_u
        rw [h1] at h2
        exact Bool.noConfusion h2

theorem bannedOccur_append {l u : List Char} (hu : ∀ c ∈ u, isWordChar c = false) :
    BannedOccur (l ++ u) ↔ BannedOccur l := by
  constructor
  · rintro ⟨w, hw, hocc⟩
    exact ⟨w, hw,
      wordOccur_restrict (bannedWords_ne_nil w hw) (bannedWords_wordChars w hw) hu hocc⟩
  · rintro ⟨w, hw, hocc⟩
    exact ⟨w, hw, wordOccur_append hu hocc⟩

theorem bannedScan_eq_specBannedHit (l : List Char) : bannedScan false l = specBannedHit l := by
  by_cases h : bannedScan false l = true
  · rw [h]
    exact ((specBannedHit_iff l).mpr ((bannedScan_iff_occur l).mp h)).symm
  · rw [Bool.not_eq_true] at h
    rw [h]
    cases hs : specBannedHit l
    · rfl
    · exact absurd ((bannedScan_iff_occur l).mpr ((specBannedHit_iff l).mp hs))
        (by rw [h]; simp)

/-! ### Inversion lemmas for the sanitizer -/

theorem bool_eq_of_iff {a b : Bool} (h : a = true ↔ b = true) : a = b := by
  cases a <;> cases b <;> simp_all

theorem isPrefixOf_eq_specStarts (pat l : List Char) :
    pat.isPrefixOf l = specStarts pat l :=
  bool_eq_of_iff ((isPrefixOf_iff pat l).trans (specStarts_iff pat l).symm)

theorem sanitizeSql_ok_iff (s out : List Char) :
    sanitizeSql s = .ok out ↔
      s.isEmpty = false ∧
      "select".data.isPrefixOf (lowerStr (trimChars s)) = true ∧
      fragCount (trimChars s) ≤ 1 ∧
      bannedScan false (lowerStr (trimChars s)) = false ∧
      containsSub "--".data (lowerStr (trimChars s)) = false ∧
      containsSub "/*".data (lowerStr (trimChars s)) = false ∧
      out = stripOneTrailingSemi (trimChars s) := by
  simp only [sanitizeSql]
  split_ifs with h1 h2 h3 h4 h5
  · rw [false_iff]
    rintro ⟨hfalse, -⟩
    rw [h1] at hfalse
    exact Bool.noConfusion hfalse
  · rw [false_iff]
    rintro ⟨-, hpre, -⟩
    rw [Bool.not_eq_true'] at h2
    rw [hpre] at h2
    exact Bool.noConfusion h2
  · rw [false_iff]
    rintro ⟨-, -, hfrag, -⟩
    omega
  · rw [false_iff]
    rintro ⟨-, -, -, hb, -⟩
    rw [hb] at h4
    exact Bool.noConfusion h4
  · rw [false_iff]
    rintro ⟨-, -, -, -, hc1, hc2, -⟩
    rw [hc1, hc2] at h5
    exact Bool.noConfusion h5
  · constructor
    · intro h
      have hout : stripOneTrailingSemi (trimChars s) = out := by
        exact Except.ok.inj h
      refine ⟨?_, ?_, by omega, ?_, ?_, ?_, hout.symm⟩
      · cases hb : s.isEmpty
        · rfl
        · exact absurd hb h1
      · cases hb : "select".data.isPrefixOf (lowerStr (trimChars s))
        · exact absurd (by rw [hb]; rfl) h2
        · rfl
      · cases hb : bannedScan false (lowerStr (trimChars s))
        · rfl
        · exact absurd hb h4
      · cases hb : containsSub "--".data (lowerStr (trimChars s))
        · rfl
        · exact absurd (by rw [hb]; rfl) h5
      · cases hb : containsSub "/*".data (lowerStr (trimChars s))
        · rfl
        · exact absurd (by rw [hb, Bool.or_true]) h5
    · rintro ⟨-, -, -, -, -, -, hout⟩
      rw [hout]

theorem sanitizeSql_notASelect (s : List Char) (h1 : s.isEmpty = false)
    (h2 : "select".data.isPrefixOf (lowerStr (trimChars s)) = false) :
    sanitizeSql s = .error .NotASelect := by
  simp only [sanitizeSql]
  rw [if_neg (by simp [h1]), if_pos (by simp [h2])]

theorem sanitizeSql_multiple (s : List Char) (h1 : s.isEmpty = false)
    (h2 : "select".data.isPrefixOf (lowerStr (trimChars s)) = true)
    (h3 : 1 < fragCount (trimChars s)) :
    sanitizeSql s = .error .MultipleStatements := by
  simp only [sanitizeSql]
  rw [if_neg (by simp [h1]), if_neg (by simp [h2]), if_pos h3]

theorem sanitizeSql_forbidden (s : List Char) (h1 : s.isEmpty = false)
    (h2 : "select".data.isPrefixOf (lowerStr (trimChars s)) = true)
    (h3 : fragCount (trimChars s) ≤ 1)
    (h4 : bannedScan false (lowerStr (trimChars s)) = true) :
    sanitizeSql s = .error .ForbiddenOperation := by
  simp only [sanitizeSql]
  rw [if_neg (by simp [h1]), if_neg (by simp [h2]), if_neg (by omega), if_pos h4]

theorem sanitizeSql_comments (s : List Char) (h1 : s.isEmpty = false)
    (h2 : "select".data.isPrefixOf (lowerStr (trimChars s)) = true)
    (h3 : fragCount (trimChars s) ≤ 1)
    (h4 : bannedScan false (lowerStr (trimChars s)) = false)
    (h5 : (containsSub "--".data (lowerStr (trimChars s)) ||
      containsSub "/*".data (lowerStr (trimChars s))) = true) :
    sanitizeSql s = .error .CommentsNotAllowed := by
  simp only [sanitizeSql]
  rw [if_neg (by simp [h1]), if_neg (by simp [h2]), if_neg (by omega), if_neg (by simp [h4]),
    if_pos h5]

/-! ### Claim theorems for the sanitizer's rejection rules -/

/-- Claim C2: every input that passes rules 1-3 (non-empty, trimmed
lower-cased text starts with `select`, at most one non-empty fragment when
split on `;`) and whose lower-cased text contains a banned operation word
as a whole word — in any position, including inside a quoted string
literal — is rejected with `ForbiddenOperation`. -/
theorem c2_forbidden_operation (s : List Char) (h1 : s ≠ [])
    (h2 : specStarts "select".data (lowerStr (trimChars s)) = true)
    (h3 : fragCount (trimChars s) ≤ 1)
    (h4 : specBannedHit (lowerStr (trimChars s)) = true) :
    sanitizeSql s = .error .ForbiddenOperation := by
  apply sanitizeSql_forbidden
  · cases s with
    | nil => exact absurd rfl h1
    | cons a t => rfl
  · rw [isPrefixOf_eq_specStarts]
    exact h2
  · exact h3
  · rw [bannedScan_eq_specBannedHit]
    exact h4

/-- Witness for C2 at the claim's own example
`select * from t where name = 'update me'`: the banned word sits inside a
string literal and the query is still rejected. -/
theorem c2_forbidden_operation_witness :
    sanitizeSql c2Input = .error .ForbiddenOperation :=
  c2_forbidden_operation c2Input (by decide) (by rfl) (by decide) (by rfl)

/-- Counterexample to claim C3 as stated: `selection 1` does not start with
the literal token `select` (its first word is `selection`), yet the code
accepts it instead of failing with `NotASelect`, because line 117 tests
`startsWith("select")`, a prefix check, not a token check. -/
theorem c3_counterexample :
    sanitizeSql "selection 1".data = .ok "selection 1".data ∧
      sanitizeSql "selection 1".data ≠ .error .NotASelect := by
  refine ⟨rfl, ?_⟩
  intro h
  rw [show sanitizeSql "selection 1".data = .ok "selection 1".data from rfl] at h
  exact Except.noConfusion h

/-- Claim C3 amended: the check is a prefix test, not a token test.  Every
non-empty input whose trimmed lower-cased text does not start with the
prefix `select` fails with `NotASelect`; an input whose first word merely
extends `select`, such as `selection 1`, passes the check (and here is
accepted outright). -/
theorem c3_not_a_select (s : List Char) (h1 : s ≠ [])
    (h2 : specStarts "select".data (lowerStr (trimChars s)) = false) :
    sanitizeSql s = .error .NotASelect ∧
      sanitizeSql "selection 1".data = .ok "selection 1".data := by
  refine ⟨?_, rfl⟩
  apply sanitizeSql_notASelect
  · cases s with
    | nil => exact absurd rfl h1
    | cons a t => rfl
  · rw [isPrefixOf_eq_specStarts]
    exact h2

/-- Witness for the amended C3 at `update 1`. -/
theorem c3_not_a_select_witness :
    sanitizeSql "update 1".data = .error .NotASelect ∧
      sanitizeSql "selection 1".data = .ok "selection 1".data :=
  c3_not_a_select "update 1".data (by decide) (by rfl)

/-- Counterexample to claim C4 as stated: `delete 1; delete 2` splits into
two non-empty fragments, but the select check runs first, so the error is
`NotASelect`, not `MultipleStatements`. -/
theorem c4_counterexample :
    1 < fragCount (trimChars "delete 1; delete 2".data) ∧
      sanitizeSql "delete 1; delete 2".data = .error .NotASelect ∧
      sanitizeSql "delete 1; delete 2".data ≠ .error .MultipleStatements := by
  refine ⟨by decide, rfl, ?_⟩
  intro h
  rw [show sanitizeSql "delete 1; delete 2".data = .error .NotASelect from rfl] at h
  exact SanitizeError.noConfusion (Except.error.inj h)

/-- Claim C4 amended: restricted to inputs that pass rules 1-2 (non-empty,
trimmed lower-cased text starts with `select`), more than one non-empty
fragment after splitting on `;` fails with `MultipleStatements`; and a
single select with one trailing semicolon succeeds with that semicolon
stripped. -/
theorem c4_multiple_statements (s : List Char) (h1 : s ≠ [])
    (h2 : specStarts "select".data (lowerStr (trimChars s)) = true)
    (h3 : 1 < fragCount (trimChars s)) :
    sanitizeSql s = .error .MultipleStatements ∧
      sanitizeSql "select 1;".data = .ok "select 1".data := by
  refine ⟨?_, rfl⟩
  apply sanitizeSql_multiple
  · cases s with
    | nil => exact absurd rfl h1
    | cons a t => rfl
  · rw [isPrefixOf_eq_specStarts]
    exact h2
  · exact h3

/-- Witness for the amended C4 at the claim's example `select 1; select 2`. -/
theorem c4_multiple_statements_witness :
    sanitizeSql "select 1; select 2".data = .error .MultipleStatements ∧
      sanitizeSql "select 1;".data = .ok "select 1".data :=
  c4_multiple_statements "select 1; select 2".data (by decide) (by rfl) (by decide)

/-- Counterexample to claim C5 as stated, at the claim's own example
`select 1 -- comment`: the banned-word check runs before the comment
check and `comment` is itself a banned word, so the error is
`ForbiddenOperation`, not `CommentsNotAllowed`. -/
theorem c5_counterexample :
    specContains "--".data (lowerStr (trimChars "select 1 -- comment".data)) = true ∧
      sanitizeSql "select 1 -- comment".data = .error .ForbiddenOperation ∧
      sanitizeSql "select 1 -- comment".data ≠ .error .CommentsNotAllowed := by
  refine ⟨rfl, rfl, ?_⟩
  intro h
  rw [show sanitizeSql "select 1 -- comment".data = .error .ForbiddenOperation from rfl] at h
  exact SanitizeError.noConfusion (Except.error.inj h)

/-- Claim C5 amended: restricted to inputs that pass rules 1-4 (non-empty,
select prefix, single statement, no banned whole word), a `--` or `/*`
anywhere in the lower-cased text fails with `CommentsNotAllowed`. -/
theorem c5_comments_not_allowed (s : List Char) (h1 : s ≠ [])
    (h2 : specStarts "select".data (lowerStr (trimChars s)) = true)
    (h3 : fragCount (trimChars s) ≤ 1)
    (h4 : specBannedHit (lowerStr (trimChars s)) = false)
    (h5 : specContains "--".data (lowerStr (trimChars s)) = true ∨
      specContains "/*".data (lowerStr (trimChars s)) = true) :
    sanitizeSql s = .error .CommentsNotAllowed := by
  apply sanitizeSql_comments
  · cases s with
    | nil => exact absurd rfl h1
    | cons a t => rfl
  · rw [isPrefixOf_eq_specStarts]
    exact h2
  · exact h3
  · rw [bannedScan_eq_specBannedHit]
    exact h4
  · rw [containsSub_eq_specContains, containsSub_eq_specContains]
    rcases h5 with h5 | h5 <;> simp [h5]

/-- Witness for the amended C5 at `select 1 -- note`. -/
theorem c5_comments_not_allowed_witness :
    sanitizeSql "select 1 -- note".data = .error .CommentsNotAllowed :=
  c5_comments_not_allowed "select 1 -- note".data (by decide) (by rfl) (by decide)
    (by rfl) (Or.inl (by rfl))

/-- Claim C6: `sanitizeSql` evaluates its rules in exactly the
specification's order with the first failing rule determining the error:
it coincides with `specSanitize`, the rule chain transcribed from the
specification (non-empty, else `SqlMissing`; select prefix, else
`NotASelect`; at most one non-empty fragment, else `MultipleStatements`;
no banned whole word, else `ForbiddenOperation`; no `--` or `/*`, else
`CommentsNotAllowed`; on success the trimmed input with one trailing
semicolon stripped). -/
theorem c6_rule_order : ∀ s, sanitizeSql s = specSanitize s := by
  intro s
  simp only [sanitizeSql, specSanitize, isPrefixOf_eq_specStarts,
    bannedScan_eq_specBannedHit, containsSub_eq_specContains]

/-! ### Structure of a successful sanitization -/

theorem head?_append_left {l : List Char} (h : l ≠ []) (r : List Char) :
    (l ++ r).head? = l.head? := by
  cases l with
  | nil => exact absurd rfl h
  | cons a t => rfl

theorem head?_dropLast {l : List Char} (h : 2 ≤ l.length) : l.dropLast.head? = l.head? := by
  cases l with
  | nil => simp at h
  | cons a t =>
    cases t with
    | nil => simp at h
    | cons b r => rfl

theorem head?_lowerStr (l : List Char) : (lowerStr l).head? = l.head?.map Char.toLower := by
  cases l with
  | nil => rfl
  | cons a t => rfl

theorem lowerStr_append (a b : List Char) : lowerStr (a ++ b) = lowerStr a ++ lowerStr b :=
  List.map_append Char.toLower a b

theorem lowerStr_concat_semi (l : List Char) : lowerStr (l ++ [';']) = lowerStr l ++ [';'] := by
  rw [lowerStr_append]
  rfl

theorem select_chars_not_wsp : ∀ c ∈ "select".data, isJsWsp c = false := by decide

theorem frag_append_wsp {u : List Char} (hu : ∀ c ∈ u, isJsWsp c = true) (l : List Char) :
    fragCount (l ++ u) = fragCount l := by
  induction u using List.reverseRecOn with
  | nil => rw [List.append_nil]
  | append_singleton u' c ih =>
    rw [← List.append_assoc, fragCount_concat_wsp (hu c (by simp))]
    exact ih fun d hd => hu d (List.mem_append_left [c] hd)

/-- Everything a successful run of `sanitizeSql` establishes about its
output: its shape relative to the trimmed input, its length, head, select
prefix, relation of lower-casings, fragment count, and the absence of
banned words and comment markers. -/
theorem ok_structure {s out : List Char} (h : sanitizeSql s = .ok out) :
    (out = trimChars s ∨
      ((trimChars s).getLast? = some ';' ∧ out = (trimChars s).dropLast)) ∧
    6 ≤ out.length ∧
    out.head? = (trimChars s).head? ∧
    "select".data <+: lowerStr out ∧
    (lowerStr (trimChars s) = lowerStr out ∨
      lowerStr (trimChars s) = lowerStr out ++ [';']) ∧
    fragCount out ≤ 1 ∧
    ¬BannedOccur (lowerStr out) ∧
    containsSub "--".data (lowerStr out) = false ∧
    containsSub "/*".data (lowerStr out) = false := by
  obtain ⟨-, hpreB, hfrag, hban, hcc1, hcc2, hout⟩ := (sanitizeSql_ok_iff s out).mp h
  have hpre : "select".data <+: lowerStr (trimChars s) := (isPrefixOf_iff _ _).mp hpreB
  have hnoOcc : ¬BannedOccur (lowerStr (trimChars s)) := by
    intro hocc
    rw [(bannedScan_iff_occur _).mpr hocc] at hban
    exact Bool.noConfusion hban
  have hsel6 : ("select".data).length = 6 := rfl
  have hlow6 : 6 ≤ (lowerStr (trimChars s)).length := by
    have := hpre.length_le
    omega
  have hlent : (trimChars s).length = (lowerStr (trimChars s)).length :=
    (List.length_map _ _).symm
  unfold stripOneTrailingSemi at hout
  by_cases hsemi : (trimChars s).getLast? = some ';'
  · -- the trimmed input ends with a semicolon that gets stripped
    rw [if_pos hsemi] at hout
    have htne : trimChars s ≠ [] := by
      intro h0
      rw [h0] at hsemi
      exact Option.noConfusion hsemi
    have hglast : (trimChars s).getLast htne = ';' := by
      have := List.getLast?_eq_getLast (trimChars s) htne
      rw [hsemi] at this
      exact (Option.some.inj this).symm
    have hdec : (trimChars s).dropLast ++ [';'] = trimChars s := by
      have := List.dropLast_append_getLast htne
      rw [hglast] at this
      exact this
    have hlen7 : 7 ≤ (trimChars s).length := by
      by_contra hlt
      have h6 : (trimChars s).length = 6 := by omega
      have heq : lowerStr (trimChars s) = "select".data :=
        (hpre.eq_of_length (by omega)).symm
      have hl1 : (lowerStr (trimChars s)).getLast? = some 't' := by
        rw [heq]
        rfl
      have hl2 : (lowerStr (trimChars s)).getLast? = some ';' := by
        unfold lowerStr
        rw [List.getLast?_map, hsemi]
        rfl
      rw [hl1] at hl2
      have : 't' = ';' := Option.some.inj hl2
      exact absurd this (by decide)
    have hlowdec : lowerStr (trimChars s) = lowerStr out ++ [';'] := by
      rw [hout, ← lowerStr_concat_semi, hdec]
    have houtlen : 6 ≤ out.length := by
      rw [hout, List.length_dropLast]
      omega
    refine ⟨Or.inr ⟨hsemi, hout⟩, houtlen, ?_, ?_, Or.inr hlowdec, ?_, ?_, ?_, ?_⟩
    · rw [hout]
      exact head?_dropLast (by omega)
    · -- select prefix of the lower-cased output
      have hsub : lowerStr out <+: lowerStr (trimChars s) := by
        rw [hlowdec]
        exact List.prefix_append _ _
      refine List.prefix_of_prefix_length_le hpre hsub ?_
      have hlm : (lowerStr out).length = out.length := List.length_map _ _
      rw [hsel6]
      omega
    · -- fragment count
      have hfc : fragCount ((trimChars s).dropLast ++ [';']) = fragCount (trimChars s) := by
        rw [hdec]
      rw [fragCount_concat_semi] at hfc
      rw [hout]
      omega
    · -- no banned occurrence
      intro hocc
      apply hnoOcc
      rw [hlowdec]
      exact (bannedOccur_append (by intro c hc; simp at hc; rw [hc]; exact semi_not_word)).mpr hocc
    · -- no double dash
      cases hc : containsSub "--".data (lowerStr out)
      · rfl
      · exfalso
        have hinf : "--".data <:+: lowerStr (trimChars s) := by
          rw [hlowdec]
          exact infix_of_prefix_infix ((containsSub_iff _ _).mp hc) (List.prefix_append _ _)
        rw [(containsSub_iff _ _).mpr hinf] at hcc1
        exact Bool.noConfusion hcc1
    · -- no comment opener
      cases hc : containsSub "/*".data (lowerStr out)
      · rfl
      · exfalso
        have hinf : "/*".data <:+: lowerStr (trimChars s) := by
          rw [hlowdec]
          exact infix_of_prefix_infix ((containsSub_iff _ _).mp hc) (List.prefix_append _ _)
        rw [(containsSub_iff _ _).mpr hinf] at hcc2
        exact Bool.noConfusion hcc2
  · -- no trailing semicolon: the output is the trimmed input itself
    rw [if_neg hsemi] at hout
    subst hout
    exact ⟨Or.inl rfl, by omega, rfl, hpre, Or.inl rfl, hfrag, hnoOcc, hcc1, hcc2⟩

/-- Claim C7: idempotence — if `sanitizeSql` accepts `s` producing `out`,
then `sanitizeSql (out ++ ";")` succeeds and returns exactly `out`. -/
theorem c7_idempotent (s out : List Char) (h : sanitizeSql s = .ok out) :
    sanitizeSql (out ++ [';']) = .ok out := by
  obtain ⟨hshape, hlen, hhead, hpre, hlowrel, hfrag, hban, hcc1, hcc2⟩ := ok_structure h
  have houtne : out ≠ [] := by
    intro h0
    rw [h0] at hlen
    simp at hlen
  obtain ⟨c0, hc0⟩ : ∃ c, out.head? = some c := by
    cases out with
    | nil => exact absurd rfl houtne
    | cons a t => exact ⟨a, rfl⟩
  have hc0w : isJsWsp c0 = false := by
    apply trimChars_head
    rw [← hhead]
    exact hc0
  have hlast : (out ++ [';']).getLast? = some ';' := by simp
  have htrim : trimChars (out ++ [';']) = out ++ [';'] := by
    apply trimChars_eq_self
    · intro d hd
      rw [head?_append_left houtne, hc0] at hd
      obtain rfl := Option.some.inj hd
      exact hc0w
    · intro d hd
      rw [hlast] at hd
      obtain rfl := Option.some.inj hd
      exact semi_not_wsp
  have hlow' : lowerStr (out ++ [';']) = lowerStr out ++ [';'] := lowerStr_concat_semi out
  rw [sanitizeSql_ok_iff]
  refine ⟨?_, ?_, ?_, ?_, ?_, ?_, ?_⟩
  · cases out with
    | nil => rfl
    | cons a t => rfl
  · rw [htrim, hlow']
    exact (isPrefixOf_iff _ _).mpr (hpre.trans (List.prefix_append (lowerStr out) [';']))
  · rw [htrim, fragCount_concat_semi]
    exact hfrag
  · rw [htrim, hlow']
    cases hb : bannedScan false (lowerStr out ++ [';'])
    · rfl
    · exfalso
      apply hban
      have hocc := (bannedScan_iff_occur _).mp hb
      refine (bannedOccur_append ?_).mp hocc
      intro d hd
      simp only [List.mem_singleton] at hd
      rw [hd]
      exact semi_not_word
  · rw [htrim, hlow']
    cases hb : containsSub "--".data (lowerStr out ++ [';'])
    · rfl
    · exfalso
      have hinf : ['-', '-'] <:+: lowerStr out ++ [';'] := (containsSub_iff _ _).mp hb
      have hinf2 := infix_pair_concat (by decide : ('-' : Char) ≠ ';') hinf
      rw [(containsSub_iff "--".data _).mpr hinf2] at hcc1
      exact Bool.noConfusion hcc1
  · rw [htrim, hlow']
    cases hb : containsSub "/*".data (lowerStr out ++ [';'])
    · rfl
    · exfalso
      have hinf : ['/', '*'] <:+: lowerStr out ++ [';'] := (containsSub_iff _ _).mp hb
      have hinf2 := infix_pair_concat (by decide : ('*' : Char) ≠ ';') hinf
      rw [(containsSub_iff "/*".data _).mpr hinf2] at hcc2
      exact Bool.noConfusion hcc2
  · rw [htrim]
    unfold stripOneTrailingSemi
    rw [if_pos hlast, List.dropLast_concat]

/-- Witness for C7: sanitizing `select 1;` yields `select 1`, and
re-sanitizing `select 1` with a semicolon appended yields it again. -/
theorem c7_idempotent_witness :
    sanitizeSql ("select 1".data ++ [';']) = .ok "select 1".data :=
  c7_idempotent "select 1;".data "select 1".data rfl

/-- Claim C1 amended: on every accepted input the output satisfies the
SanitizedQuery invariant with the statement-separator conjunct in
split-based form (`sanitizedInvariant`): lower-cased and trimmed it starts
with `select`, splits into at most one non-empty `;`-fragment, contains no
banned whole word and no `--` or `/*`, and the output is the trimmed input
with at most one trailing semicolon removed.  (The literal reading "no
separator beyond one terminating semicolon" fails, see the
counterexample.) -/
theorem c1_sanitized_invariant (s out : List Char) (h : sanitizeSql s = .ok out) :
    sanitizedInvariant s out := by
  obtain ⟨hshape, hlen, hhead, hpre, hlowrel, hfrag, hban, hcc1, hcc2⟩ := ok_structure h
  have houtne : out ≠ [] := by
    intro h0
    rw [h0] at hlen
    simp at hlen
  obtain ⟨c0, hc0⟩ : ∃ c, out.head? = some c := by
    cases out with
    | nil => exact absurd rfl houtne
    | cons a t => exact ⟨a, rfl⟩
  have hc0w : isJsWsp c0 = false := by
    apply trimChars_head
    rw [← hhead]
    exact hc0
  have hlowhead : (lowerStr out).head? = some (Char.toLower c0) := by
    rw [head?_lowerStr, hc0]
    rfl
  have hlowheadw : isJsWsp (Char.toLower c0) = false := by
    rw [toLower_wsp]
    exact hc0w
  have htl : trimChars (lowerStr out) = trimRight (lowerStr out) :=
    trimChars_eq_trimRight hlowhead hlowheadw
  obtain ⟨u, hdecomp, hu⟩ := trimRight_decomp (lowerStr out)
  have hdec2 : lowerStr out = trimChars (lowerStr out) ++ u := by
    rw [htl]
    exact hdecomp
  unfold sanitizedInvariant
  refine ⟨?_, ?_, ?_, ?_, ?_, hshape⟩
  · exact (specStarts_iff _ _).mpr
      (trimChars_keep_start (by decide) select_chars_not_wsp hpre)
  · have h1 : fragCount (lowerStr out) = fragCount out := fragCount_lower out
    have h2 : fragCount (trimChars (lowerStr out) ++ u) =
        fragCount (trimChars (lowerStr out)) := frag_append_wsp hu _
    rw [← hdec2] at h2
    omega
  · cases hb : specBannedHit (trimChars (lowerStr out))
    · rfl
    · exfalso
      apply hban
      have hocc := (specBannedHit_iff _).mp hb
      rw [hdec2]
      exact (bannedOccur_append (fun c hc => wsp_not_word c (hu c hc))).mpr hocc
  · cases hb : specContains "--".data (trimChars (lowerStr out))
    · rfl
    · exfalso
      have hinf := (specContains_iff _ _).mp hb
      have hinf2 : "--".data <:+: lowerStr out := by
        rw [hdec2]
        exact infix_of_prefix_infix hinf (List.prefix_append _ _)
      rw [(containsSub_iff _ _).mpr hinf2] at hcc1
      exact Bool.noConfusion hcc1
  · cases hb : specContains "/*".data (trimChars (lowerStr out))
    · rfl
    · exfalso
      have hinf := (specContains_iff _ _).mp hb
      have hinf2 : "/*".data <:+: lowerStr out := by
        rw [hdec2]
        exact infix_of_prefix_infix hinf (List.prefix_append _ _)
      rw [(containsSub_iff _ _).mpr hinf2] at hcc2
      exact Bool.noConfusion hcc2

/-- Witness for the amended C1 at `select 1;`. -/
theorem c1_sanitized_invariant_witness :
    sanitizedInvariant "select 1;".data "select 1".data :=
  c1_sanitized_invariant "select 1;".data "select 1".data rfl

/-- Counterexample to claim C1 as stated: `select 1;;;` is accepted (the
extra fragments are empty and discarded), the returned string is
`select 1;;`, and its lower-cased trimmed form still contains a semicolon
beyond one terminating semicolon. -/
theorem c1_counterexample :
    sanitizeSql "select 1;;;".data = .ok "select 1;;".data ∧
      noSeparatorBeyondTerminal (trimChars (lowerStr "select 1;;".data)) = false := by
  exact ⟨rfl, rfl⟩

/-! ### Schema snapshotter lemmas -/

theorem mem_firstOccs_aux (x : List Char) (ks : List (List Char)) :
    ∀ acc, x ∈ ks.foldl (fun acc k => if k ∈ acc then acc else acc ++ [k]) acc ↔
      x ∈ acc ∨ x ∈ ks := by
  induction ks with
  | nil =>
    intro acc
    simp
  | cons k ks ih =>
    intro acc
    rw [List.foldl_cons, ih]
    by_cases hk : k ∈ acc
    · rw [if_pos hk]
      constructor
      · rintro (h | h)
        · exact Or.inl h
        · exact Or.inr (List.mem_cons_of_mem k h)
      · rintro (h | h)
        · exact Or.inl h
        · rcases List.mem_cons.mp h with rfl | h
          · exact Or.inl hk
          · exact Or.inr h
    · rw [if_neg hk]
      constructor
      · rintro (h | h)
        · rcases List.mem_append.mp h with h | h
          · exact Or.inl h
          · rcases List.mem_singleton.mp h with rfl
            exact Or.inr (List.mem_cons_self x ks)
        · exact Or.inr (List.mem_cons_of_mem k h)
      · rintro (h | h)
        · exact Or.inl (List.mem_append_left _ h)
        · rcases List.mem_cons.mp h with rfl | h
          · exact Or.inl (List.mem_append_right _ (List.mem_singleton.mpr rfl))
          · exact Or.inr h

theorem mem_firstOccs (x : List Char) (ks : List (List Char)) :
    x ∈ firstOccs ks ↔ x ∈ ks := by
  unfold firstOccs
  rw [mem_firstOccs_aux]
  simp

theorem firstOccs_concat (ks : List (List Char)) (k : List Char) :
    firstOccs (ks ++ [k]) =
      if k ∈ firstOccs ks then firstOccs ks else firstOccs ks ++ [k] := by
  unfold firstOccs
  rw [List.foldl_append]
  rfl

/-- The `forEach` fold building `tableMap` produces exactly the spec-side
grouping: the keys in order of first occurrence, each carrying the meta
annotation from the count lookup and the formatted columns of its rows in
row order. -/
theorem tableFold_spec (counts : List CountRow) (cols : List ColumnRow) :
    tableFold counts cols =
      (firstOccs (cols.map (fun r => qualOf r.tableSchema r.tableName))).map
        (fun k => ⟨k, metaFor (countLookup counts k), specColsOf cols k⟩) := by
  induction cols using List.reverseRecOn with
  | nil => rfl
  | append_singleton cols r ih =>
    have hfold : tableFold counts (cols ++ [r]) =
        pushCol (tableFold counts cols) (qualOf r.tableSchema r.tableName)
          (metaFor (countLookup counts (qualOf r.tableSchema r.tableName))) (colFmt r) := by
      unfold tableFold
      rw [List.foldl_append]
      rfl
    rw [hfold, ih, List.map_append, List.map_cons, List.map_nil, firstOccs_concat]
    unfold pushCol
    by_cases hmem : qualOf r.tableSchema r.tableName ∈
        firstOccs (cols.map (fun r => qualOf r.tableSchema r.tableName))
    · rw [if_pos hmem]
      have hany : ((firstOccs (cols.map (fun r => qualOf r.tableSchema r.tableName))).map
          (fun k => (⟨k, metaFor (countLookup counts k), specColsOf cols k⟩ : TableEntry))).any
            (fun e => e.key == qualOf r.tableSchema r.tableName) = true := by
        rw [List.any_eq_true]
        refine ⟨⟨qualOf r.tableSchema r.tableName,
          metaFor (countLookup counts (qualOf r.tableSchema r.tableName)),
          specColsOf cols (qualOf r.tableSchema r.tableName)⟩, ?_, ?_⟩
        · exact List.mem_map_of_mem _ hmem
        · exact beq_self_eq_true _
      rw [if_pos hany, List.map_map]
      apply List.map_congr_left
      intro k hkks
      simp only [Function.comp_apply]
      by_cases hkK : k = qualOf r.tableSchema r.tableName
      · have hbeq : (k == qualOf r.tableSchema r.tableName) = true := by
          rw [beq_iff_eq]
          exact hkK
        have hpr : (qualOf r.tableSchema r.tableName == k) = true := by
          rw [beq_iff_eq]
          exact hkK.symm
        rw [if_pos hbeq]
        show (⟨k, metaFor (countLookup counts k), specColsOf cols k ++ [colFmt r]⟩ :
          TableEntry) = _
        unfold specColsOf
        rw [List.filter_append, List.map_append, List.filter_cons, if_pos hpr,
          List.filter_nil]
        rfl
      · have hbeq : (k == qualOf r.tableSchema r.tableName) = false := by
          cases hb : k == qualOf r.tableSchema r.tableName
          · rfl
          · rw [beq_iff_eq] at hb
            exact absurd hb hkK
        have hpr : (qualOf r.tableSchema r.tableName == k) = false := by
          cases hb : qualOf r.tableSchema r.tableName == k
          · rfl
          · rw [beq_iff_eq] at hb
            exact absurd hb.symm hkK
        rw [if_neg (by rw [hbeq]; exact Bool.noConfusion)]
        unfold specColsOf
        rw [List.filter_append, List.map_append, List.filter_cons,
          if_neg (by rw [hpr]; exact Bool.noConfusion), List.filter_nil, List.map_nil,
          List.append_nil]
    · rw [if_neg hmem]
      have hany : ((firstOccs (cols.map (fun r => qualOf r.tableSchema r.tableName))).map
          (fun k => (⟨k, metaFor (countLookup counts k), specColsOf cols k⟩ : TableEntry))).any
            (fun e => e.key == qualOf r.tableSchema r.tableName) = false := by
        cases hb : ((firstOccs (cols.map (fun r => qualOf r.tableSchema r.tableName))).map
            (fun k => (⟨k, metaFor (countLookup counts k), specColsOf cols k⟩ : TableEntry))).any
              (fun e => e.key == qualOf r.tableSchema r.tableName)
        · rfl
        · exfalso
          rw [List.any_eq_true] at hb
          obtain ⟨e, he, hek⟩ := hb
          obtain ⟨k, hkks, rfl⟩ := List.mem_map.mp he
          rw [beq_iff_eq] at hek
          exact hmem (hek ▸ hkks)
      rw [if_neg (by rw [hany]; exact Bool.noConfusion), List.map_append]
      have hnil : List.map colFmt
          (List.filter (fun rr => qualOf rr.tableSchema rr.tableName ==
            qualOf r.tableSchema r.tableName) cols) = [] := by
        have hfil : List.filter (fun rr => qualOf rr.tableSchema rr.tableName ==
            qualOf r.tableSchema r.tableName) cols = [] := by
          rw [List.filter_eq_nil_iff]
          intro rr hrr hbe
          rw [beq_iff_eq] at hbe
          apply hmem
          rw [mem_firstOccs, ← hbe]
          exact List.mem_map_of_mem _ hrr
        rw [hfil]
        rfl
      congr 1
      · apply List.map_congr_left
        intro k hkks
        have hkK : k ≠ qualOf r.tableSchema r.tableName := by
          intro he
          exact hmem (he ▸ hkks)
        have hpr : (qualOf r.tableSchema r.tableName == k) = false := by
          cases hb : qualOf r.tableSchema r.tableName == k
          · rfl
          · rw [beq_iff_eq] at hb
            exact absurd hb.symm hkK
        unfold specColsOf
        rw [List.filter_append, List.map_append, List.filter_cons,
          if_neg (by rw [hpr]; exact Bool.noConfusion), List.filter_nil, List.map_nil,
          List.append_nil]
      · show [(⟨qualOf r.tableSchema r.tableName,
          metaFor (countLookup counts (qualOf r.tableSchema r.tableName)),
          [colFmt r]⟩ : TableEntry)] = _
        have hSK : specColsOf (cols ++ [r]) (qualOf r.tableSchema r.tableName) =
            [colFmt r] := by
          unfold specColsOf
          rw [List.filter_append, List.map_append, List.filter_cons,
            if_pos (beq_self_eq_true _), List.filter_nil, hnil]
          rfl
        rw [List.map_cons, List.map_nil, hSK]

/-- The snapshot the cache-refresh path builds coincides with the
spec-side formatting: one `schema.table (est_rows ~N): col1 (type1), ...`
line per table (annotation omitted without an estimate), joined by
newlines. -/
theorem buildSchemaText_spec (cols : List ColumnRow) (counts : List CountRow) :
    buildSchemaText cols counts = specSchemaText cols counts := by
  unfold buildSchemaText specSchemaText
  rw [tableFold_spec, List.map_map]
  congr 1

/-- Counterexample to claim C8 as stated: with a cached snapshot that is
the empty string (empty database) and age 0, a call still issues both
metadata queries and does not return the cached string, because the JS
truthiness guard `cachedSchema && ...` treats `""` as falsy. -/
theorem c8_counterexample :
    (⟨some [], 0⟩ : CacheState).cachedSchema = some [] ∧
      0 - (0 : Nat) < SCHEMA_CACHE_MS ∧
      (loadSchema 0 (.ok [exCol]) (.ok []) ⟨some [], 0⟩).queries = 2 ∧
      (loadSchema 0 (.ok [exCol]) (.ok []) ⟨some [], 0⟩).result ≠ .ok [] := by
  refine ⟨rfl, by decide, rfl, ?_⟩
  intro h
  have hres : (loadSchema 0 (.ok [exCol]) (.ok []) ⟨some [], 0⟩).result =
      .ok "public.users: id (integer)".data := rfl
  rw [hres] at h
  exact absurd (Except.ok.inj h) (by decide)

/-- Claim C8 amended ("a cached snapshot exists" strengthened to "exists
and is non-empty", forced by the counterexample): (1) with a non-empty
cached snapshot younger than the 5-minute window the call returns it
unchanged, acquiring no connection and issuing no metadata queries;
(2) otherwise, with both metadata queries succeeding, the call issues the
two queries, returns the spec-formatted snapshot, and caches it with the
current timestamp; (3) hence a second call within the window after a
refresh that produced a non-empty snapshot returns byte-identical output
with no further queries. -/
theorem c8_schema_cache :
    (∀ now colsR countsR st s, st.cachedSchema = some s → s ≠ [] →
      now - st.loadedAt < SCHEMA_CACHE_MS →
      loadSchema now colsR countsR st = ⟨.ok s, st, 0, 0, 0⟩) ∧
    (∀ now cols counts st,
      (∀ s, st.cachedSchema = some s → s = [] ∨ SCHEMA_CACHE_MS ≤ now - st.loadedAt) →
      loadSchema now (.ok cols) (.ok counts) st =
        ⟨.ok (specSchemaText cols counts), ⟨some (specSchemaText cols counts), now⟩,
          1, 1, 2⟩) ∧
    (∀ now now' cols counts colsR' countsR' st,
      (∀ s, st.cachedSchema = some s → s = [] ∨ SCHEMA_CACHE_MS ≤ now - st.loadedAt) →
      specSchemaText cols counts ≠ [] → now' - now < SCHEMA_CACHE_MS →
      loadSchema now' colsR' countsR' ((loadSchema now (.ok cols) (.ok counts) st).state) =
        ⟨.ok (specSchemaText cols counts),
          (loadSchema now (.ok cols) (.ok counts) st).state, 0, 0, 0⟩) := by
  have hhit : ∀ now colsR countsR st s, st.cachedSchema = some s → s ≠ [] →
      now - st.loadedAt < SCHEMA_CACHE_MS →
      loadSchema now colsR countsR st = ⟨.ok s, st, 0, 0, 0⟩ := by
    intro now colsR countsR st s hcs hne hlt
    obtain ⟨cs, t0⟩ := st
    obtain rfl : cs = some s := hcs
    have h : loadSchema now colsR countsR ⟨some s, t0⟩ =
        if s ≠ [] ∧ now - t0 < SCHEMA_CACHE_MS then
          (⟨.ok s, ⟨some s, t0⟩, 0, 0, 0⟩ : LoadResult)
        else refreshSchema now colsR countsR ⟨some s, t0⟩ := rfl
    rw [h, if_pos ⟨hne, hlt⟩]
  have hmiss : ∀ now cols counts st,
      (∀ s, st.cachedSchema = some s → s = [] ∨ SCHEMA_CACHE_MS ≤ now - st.loadedAt) →
      loadSchema now (.ok cols) (.ok counts) st =
        ⟨.ok (specSchemaText cols counts), ⟨some (specSchemaText cols counts), now⟩,
          1, 1, 2⟩ := by
    intro now cols counts st hcond
    obtain ⟨cs, t0⟩ := st
    cases cs with
    | none =>
      have h : loadSchema now (.ok cols) (.ok counts) ⟨none, t0⟩ =
          ⟨.ok (buildSchemaText cols counts), ⟨some (buildSchemaText cols counts), now⟩,
            1, 1, 2⟩ := rfl
      rw [h, buildSchemaText_spec]
    | some s =>
      have hc : ¬(s ≠ [] ∧ now - t0 < SCHEMA_CACHE_MS) := by
        rintro ⟨hne, hlt⟩
        rcases hcond s rfl with hnil | hge
        · exact hne hnil
        · have hge2 : SCHEMA_CACHE_MS ≤ now - t0 := hge
          omega
      have h : loadSchema now (.ok cols) (.ok counts) ⟨some s, t0⟩ =
          if s ≠ [] ∧ now - t0 < SCHEMA_CACHE_MS then
            (⟨.ok s, ⟨some s, t0⟩, 0, 0, 0⟩ : LoadResult)
          else ⟨.ok (buildSchemaText cols counts),
            ⟨some (buildSchemaText cols counts), now⟩, 1, 1, 2⟩ := rfl
      rw [h, if_neg hc, buildSchemaText_spec]
  refine ⟨hhit, hmiss, ?_⟩
  intro now now' cols counts colsR' countsR' st hcond hne hlt
  rw [hmiss now cols counts st hcond]
  exact hhit now' colsR' countsR' _ _ rfl hne hlt

/-- Witness for the amended C8: a refresh at time 0 followed by a hit at
time 1 on the produced single-table snapshot. -/
theorem c8_schema_cache_witness :
    loadSchema 1 (.error "down".data) (.error "down".data)
        ((loadSchema 0 (.ok [exCol]) (.ok []) ⟨none, 0⟩).state) =
      ⟨.ok (specSchemaText [exCol] []),
        (loadSchema 0 (.ok [exCol]) (.ok []) ⟨none, 0⟩).state, 0, 0, 0⟩ :=
  c8_schema_cache.2.2 0 1 [exCol] [] (.error "down".data) (.error "down".data)
    ⟨none, 0⟩ (fun s hs => Option.noConfusion hs) (by decide) (by decide)

/-- Claim C10: if either metadata query fails, `loadSchema` leaves the
cached snapshot and its timestamp exactly as they were; the connection is
released as often as it is acquired on every path; and the cache is only
ever written when both metadata queries succeeded. -/
theorem c10_cache_atomicity :
    ∀ now colsR countsR st,
      ((∃ e, (loadSchema now colsR countsR st).result = .error e) →
        (loadSchema now colsR countsR st).state = st) ∧
      (loadSchema now colsR countsR st).connects =
        (loadSchema now colsR countsR st).releases ∧
      ((loadSchema now colsR countsR st).state ≠ st →
        (∃ cols, colsR = .ok cols) ∧ ∃ counts, countsR = .ok counts) := by
  intro now colsR countsR st
  have hrefresh : ∀ st' : CacheState,
      ((∃ e, (refreshSchema now colsR countsR st').result = .error e) →
        (refreshSchema now colsR countsR st').state = st') ∧
      (refreshSchema now colsR countsR st').connects =
        (refreshSchema now colsR countsR st').releases ∧
      ((refreshSchema now colsR countsR st').state ≠ st' →
        (∃ cols, colsR = .ok cols) ∧ ∃ counts, countsR = .ok counts) := by
    intro st'
    cases colsR with
    | error e => exact ⟨fun _ => rfl, rfl, fun hne => absurd rfl hne⟩
    | ok cols =>
      cases countsR with
      | error e => exact ⟨fun _ => rfl, rfl, fun hne => absurd rfl hne⟩
      | ok counts =>
        refine ⟨?_, rfl, fun _ => ⟨⟨cols, rfl⟩, ⟨counts, rfl⟩⟩⟩
        rintro ⟨e, he⟩
        exact Except.noConfusion he
  obtain ⟨cs, t0⟩ := st
  cases cs with
  | none =>
    have h : loadSchema now colsR countsR ⟨none, t0⟩ =
        refreshSchema now colsR countsR ⟨none, t0⟩ := rfl
    rw [h]
    exact hrefresh ⟨none, t0⟩
  | some s =>
    by_cases hcond : s ≠ [] ∧ now - t0 < SCHEMA_CACHE_MS
    · have h : loadSchema now colsR countsR ⟨some s, t0⟩ =
          ⟨.ok s, ⟨some s, t0⟩, 0, 0, 0⟩ := by
        have h2 : loadSchema now colsR countsR ⟨some s, t0⟩ =
            if s ≠ [] ∧ now - t0 < SCHEMA_CACHE_MS then
              (⟨.ok s, ⟨some s, t0⟩, 0, 0, 0⟩ : LoadResult)
            else refreshSchema now colsR countsR ⟨some s, t0⟩ := rfl
        rw [h2, if_pos hcond]
      rw [h]
      exact ⟨fun _ => rfl, rfl, fun hne => absurd rfl hne⟩
    · have h : loadSchema now colsR countsR ⟨some s, t0⟩ =
          refreshSchema now colsR countsR ⟨some s, t0⟩ := by
        have h2 : loadSchema now colsR countsR ⟨some s, t0⟩ =
            if s ≠ [] ∧ now - t0 < SCHEMA_CACHE_MS then
              (⟨.ok s, ⟨some s, t0⟩, 0, 0, 0⟩ : LoadResult)
            else refreshSchema now colsR countsR ⟨some s, t0⟩ := rfl
        rw [h2, if_neg hcond]
      rw [h]
      exact hrefresh ⟨some s, t0⟩

/-- Witness for C10: a failing column query at a cold cache leaves the
state untouched and releases its connection. -/
theorem c10_cache_atomicity_witness :
    (loadSchema 0 (.error "db down".data) (.ok []) ⟨none, 0⟩).state = ⟨none, 0⟩ ∧
      (loadSchema 0 (.error "db down".data) (.ok []) ⟨none, 0⟩).connects =
        (loadSchema 0 (.error "db down".data) (.ok []) ⟨none, 0⟩).releases :=
  ⟨(c10_cache_atomicity 0 (.error "db down".data) (.ok []) ⟨none, 0⟩).1
      ⟨"db down".data, rfl⟩,
    (c10_cache_atomicity 0 (.error "db down".data) (.ok []) ⟨none, 0⟩).2.1⟩

/-- Claim C9: the `POST /api/query` handler (1) answers 400 "Question is
required" without invoking any collaborator when the body has no
non-empty-trimmed string question; (2) relays any `buildSql` pipeline
failure (schema, model, JSON, missing `sql`, sanitization) as 400 with
that failure's message; (3) relays an execution failure as 400 with its
message; (4) on success answers 200 with `{sql, notes, rows, rowCount}`. -/
theorem c9_query_endpoint :
    (∀ q ext, validQuestion q = none →
      handleQuery q ext =
        (⟨400, .errMsg "Question is required".data⟩, ⟨false, false, false⟩)) ∧
    (∀ q ext s m inv, validQuestion q = some s → buildSqlM ext = (.error m, inv) →
      handleQuery q ext = (⟨400, .errMsg m⟩, inv)) ∧
    (∀ q ext s sql notes inv m, validQuestion q = some s →
      buildSqlM ext = (.ok (sql, notes), inv) → ext.execR sql = .error m →
      handleQuery q ext = (⟨400, .errMsg m⟩, ⟨inv.schemaQ, inv.modelQ, true⟩)) ∧
    (∀ q ext s sql notes inv res, validQuestion q = some s →
      buildSqlM ext = (.ok (sql, notes), inv) → ext.execR sql = .ok res →
      handleQuery q ext =
        (⟨200, .success sql notes res.rows res.rowCount⟩,
          ⟨inv.schemaQ, inv.modelQ, true⟩)) := by
  refine ⟨?_, ?_, ?_, ?_⟩
  · intro q ext hv
    simp only [handleQuery, hv]
  · intro q ext s m inv hv hb
    simp only [handleQuery, hv, hb]
  · intro q ext s sql notes inv m hv hb hex
    simp only [handleQuery, hv, hb, hex]
  · intro q ext s sql notes inv res hv hb hex
    simp only [handleQuery, hv, hb, hex]

/-- Witness for C9: an absent question is refused without any collaborator
call, and a valid question with a clean pipeline succeeds. -/
theorem c9_query_endpoint_witness :
    handleQuery none exExt =
        (⟨400, .errMsg "Question is required".data⟩, ⟨false, false, false⟩) ∧
      handleQuery (some (.str "list users".data)) exExt =
        (⟨200, .success "select 1".data (.str []) [] 0⟩, ⟨true, true, true⟩) :=
  ⟨c9_query_endpoint.1 none exExt rfl,
    c9_query_endpoint.2.2.2 (some (.str "list users".data)) exExt "list users".data
      "select 1".data (.str []) ⟨true, true, false⟩ ⟨[], 0⟩ rfl rfl rfl⟩

end TextToSql
